import Mathlib

/-!
Verification development for the iox partition-compaction engine and its
InfluxQL duration utility.

The Rust code under study performs `f64` arithmetic in
`compactor2::driver::compute_permits`.  We embed IEEE-754 binary64 arithmetic
exactly: every value reachable on that code path is a nonnegative finite
double far away from overflow and underflow, so a double is represented by a
nonnegative mantissa together with a binary exponent, and each operation
rounds its exact rational result to 53 significant bits with round-to-nearest,
ties-to-even, precisely as the hardware does.  The executable layer works on
natural numbers only (so the kernel can evaluate it); the proof layer relates
it to an ideal rounding function `flq : ℚ → ℚ`.
-/

set_option maxRecDepth 40000

/-- Number of binary digits of a natural number (`bitlen 0 = 0`), computed
with an explicit fuel argument so that the kernel can evaluate it. -/
def bitlenAux : ℕ → ℕ → ℕ
  | 0, _ => 0
  | fuel+1, n => if n = 0 then 0 else bitlenAux fuel (n / 2) + 1

/-- Number of binary digits of a natural number: `bitlen n = ⌊log₂ n⌋ + 1`
for `n ≠ 0`, and `bitlen 0 = 0`. -/
def bitlen (n : ℕ) : ℕ := bitlenAux n n

/-- Round-to-nearest, ties-to-even of the fraction `p / q` (for `q ≠ 0`),
computed on natural numbers. -/
def rnePQ (p q : ℕ) : ℕ :=
  if 2 * (p % q) < q then p / q
  else if q < 2 * (p % q) then p / q + 1
  else if p / q % 2 = 0 then p / q else p / q + 1

/-- Decide whether `2 ^ e ≤ p / q` using only natural-number arithmetic. -/
def le2pow (e : ℤ) (p q : ℕ) : Bool :=
  if 0 ≤ e then q * 2 ^ e.toNat ≤ p else q ≤ p * 2 ^ (-e).toNat

/-- Binade exponent of the positive fraction `p / q`: the unique `e` with
`2 ^ e ≤ p / q < 2 ^ (e + 1)`, computed on natural numbers. -/
def expPQ (p q : ℕ) : ℤ :=
  let e0 : ℤ := (bitlen p : ℤ) - (bitlen q : ℤ)
  if le2pow e0 p q then e0 else e0 - 1

/-- Nonnegative IEEE-754 binary64 value `m · 2 ^ e`.  Results of arithmetic
have `2 ^ 52 ≤ m ≤ 2 ^ 53` or `m = 0`; the semantics never depends on the
representation being normalized. -/
structure F64 where
  m : ℕ
  e : ℤ
deriving DecidableEq

/-- Exact rational value denoted by an `F64`. -/
def F64.val (x : F64) : ℚ := (x.m : ℚ) * 2 ^ x.e

/-- Round the exact fraction `p / q` (for `q ≠ 0`) to the nearest binary64:
mantissa `rne ((p / q) / 2 ^ (e - 52))` at binade exponent `e`. -/
def roundRat (p q : ℕ) : F64 :=
  if p = 0 then ⟨0, 0⟩
  else
    let e := expPQ p q
    let k := 52 - e
    let m := if 0 ≤ k then rnePQ (p * 2 ^ k.toNat) q else rnePQ p (q * 2 ^ (-k).toNat)
    ⟨m, e - 52⟩

/-- Conversion of a natural number to binary64 (Rust `n as f64`), exact for
`n < 2 ^ 53` and correctly rounded beyond. -/
def f64ofNat (n : ℕ) : F64 := roundRat n 1

/-- Binary64 multiplication: the exact product rounded to nearest. -/
def f64mul (a b : F64) : F64 :=
  let r := roundRat (a.m * b.m) 1
  ⟨r.m, r.e + (a.e + b.e)⟩

/-- Binary64 division: the exact quotient rounded to nearest. -/
def f64div (a b : F64) : F64 :=
  let r := roundRat a.m b.m
  ⟨r.m, r.e + (a.e - b.e)⟩

/-- Decide `x < 1.0` for a nonnegative binary64. -/
def F64.ltOne (x : F64) : Bool :=
  if 0 ≤ x.e then x.m = 0 else x.m < 2 ^ (-x.e).toNat

/-- Truncation toward zero of a nonnegative binary64 to a natural number
(the integer part of `x`, as in Rust `x as u32` before saturation). -/
def F64.trunc (x : F64) : ℕ :=
  if 0 ≤ x.e then x.m * 2 ^ x.e.toNat else x.m / 2 ^ (-x.e).toNat

/-! Ideal rounding on ℚ, the proof-level counterpart of `roundRat`. -/

/-- Round-to-nearest, ties-to-even of a rational to an integer. -/
def rne (x : ℚ) : ℤ :=
  if x - ⌊x⌋ < 1/2 then ⌊x⌋
  else if 1/2 < x - ⌊x⌋ then ⌊x⌋ + 1
  else if ⌊x⌋ % 2 = 0 then ⌊x⌋ else ⌊x⌋ + 1

/-- Binade exponent of a positive rational: the unique `e` with
`2 ^ e ≤ x < 2 ^ (e + 1)`. -/
def qexp (x : ℚ) : ℤ :=
  let e0 : ℤ := (bitlen x.num.toNat : ℤ) - (bitlen x.den : ℤ)
  if x < 2 ^ e0 then e0 - 1 else e0

/-- Ideal IEEE-754 binary64 rounding of a rational (round to nearest, ties to
even, 53 significant bits); nonpositive inputs map to `0` because the code
path under study only ever rounds nonnegative values. -/
def flq (x : ℚ) : ℚ :=
  if x ≤ 0 then 0
  else (rne (x / 2 ^ (qexp x - 52)) : ℚ) * 2 ^ (qexp x - 52)

/-! The compactor driver's permit computation, `compactor2/src/driver.rs`. -/

/-- Column count at or above which a partition is compacted single threaded. -/
def SINGLE_THREADED_COLUMN_COUNT : ℕ := 100

/-- Number of semaphore permits a job must acquire, given the semaphore's
total permit count and the job's column count.  Mirrors
`compute_permits(total_permits: usize, columns: usize) -> u32`: at or above
`SINGLE_THREADED_COLUMN_COUNT` columns it returns `total_permits as u32`
(truncation mod `2 ^ 32`); otherwise it computes
`total_permits as f64 * share * share` with `share = columns as f64 / 100.0`
in binary64 arithmetic, returns `1` if that is below `1.0`, and otherwise
converts it with Rust `as u32` (truncation, saturating at `u32::MAX`). -/
def compute_permits (total_permits columns : ℕ) : ℕ :=
  if SINGLE_THREADED_COLUMN_COUNT ≤ columns then
    total_permits % 2 ^ 32
  else
    let share := f64div (f64ofNat columns) (f64ofNat SINGLE_THREADED_COLUMN_COUNT)
    let permits := f64mul (f64mul (f64ofNat total_permits) share) share
    if permits.ltOne then 1
    else min (2 ^ 32 - 1) permits.trunc

/-! The InfluxQL duration literal, `influxdb_influxql_parser/src/literal.rs`. -/

/-- Number of nanoseconds in a microsecond. -/
def NANOS_PER_MICRO : ℤ := 1000

/-- Number of nanoseconds in a millisecond. -/
def NANOS_PER_MILLI : ℤ := 1000 * NANOS_PER_MICRO

/-- Number of nanoseconds in a second. -/
def NANOS_PER_SEC : ℤ := 1000 * NANOS_PER_MILLI

/-- Number of nanoseconds in a minute. -/
def NANOS_PER_MIN : ℤ := 60 * NANOS_PER_SEC

/-- Number of nanoseconds in an hour. -/
def NANOS_PER_HOUR : ℤ := 60 * NANOS_PER_MIN

/-- Number of nanoseconds in a day. -/
def NANOS_PER_DAY : ℤ := 24 * NANOS_PER_HOUR

/-- Number of nanoseconds in a week. -/
def NANOS_PER_WEEK : ℤ := 7 * NANOS_PER_DAY

/-- An InfluxQL duration in nanoseconds (`pub struct Duration(i64)`). -/
structure Duration where
  nanos : ℤ
deriving DecidableEq, Repr

/-- The `DIVISORS` table of the `Display` implementation: divisor and unit
suffix, largest first. -/
def DIVISORS : List (ℤ × String) :=
  [(NANOS_PER_WEEK, r"w"), (NANOS_PER_DAY, r"d"), (NANOS_PER_HOUR, r"h"),
    (NANOS_PER_MIN, r"m"), (NANOS_PER_SEC, r"s"), (NANOS_PER_MILLI, r"ms"),
    (NANOS_PER_MICRO, r"us"), (1, r"ns")]

/-- Decimal digits of a natural number, most significant first, with fuel for
kernel evaluation (`natToDigits n n` is exact for every `n > 0`). -/
def natToDigits : ℕ → ℕ → List Char
  | 0, _ => []
  | fuel+1, n => if n = 0 then [] else natToDigits fuel (n / 10) ++ [Char.ofNat (48 + n % 10)]

/-- Decimal rendering of a natural number. -/
def natToString (n : ℕ) : String :=
  if n = 0 then r"0" else ⟨natToDigits n n⟩

/-- Decimal rendering of an integer (only nonnegative values are rendered by
the code path under study). -/
def intToString (i : ℤ) : String :=
  if i < 0 then r"-" ++ natToString (-i).toNat else natToString i.toNat

/-- The fold inside `Display for Duration`: for each retained divisor emit
`units` followed by the unit suffix when `units > 0`, reducing the remainder.
The accumulator pairs the string built so far with the remainder `i`. -/
def displayDurationAux : List (ℤ × String) → ℤ → String → String
  | [], _, acc => acc
  | (div, unit) :: rest, i, acc =>
    if i / div > 0 then
      displayDurationAux rest (i - i / div * div) (acc ++ intToString (i / div) ++ unit)
    else
      displayDurationAux rest i acc

/-- `Display for Duration`: zero renders as `0s`; otherwise iterate over the
divisors that are strictly smaller than the duration's total value
(`self.0 > *div`), emitting each nonzero unit count. -/
def Duration.display (d : Duration) : String :=
  if d.nanos = 0 then r"0s"
  else displayDurationAux (DIVISORS.filter (fun pr => decide (d.nanos > pr.1))) d.nanos
    (String.mk [])

/-- The `digit1` combinator: consume one or more ASCII digits, returning
(remaining, digits); fails when the input does not start with a digit. -/
def digit1 (s : List Char) : Option (List Char × List Char) :=
  match s.takeWhile (fun c => c.isDigit) with
  | [] => Option.none
  | ds => some (s.drop ds.length, ds)

/-- Numeric value of a list of ASCII digits. -/
def digitsToNat (ds : List Char) : ℕ :=
  ds.foldl (fun acc c => acc * 10 + (c.toNat - 48)) 0

/-- The `integer` parser: `digit1` mapped through `str::parse::<i64>`, which
fails (`map_res`) when the digits overflow an `i64`. -/
def integer (s : List Char) : Option (List Char × ℤ) :=
  match digit1 s with
  | Option.none => Option.none
  | some (rest, ds) =>
    if digitsToNat ds ≤ 2 ^ 63 - 1 then some (rest, (digitsToNat ds : ℤ))
    else Option.none

/-- The `tag` combinator: consume an exact suffix string. -/
def tagP (t : List Char) (s : List Char) : Option (List Char) :=
  if s.take t.length = t then some (s.drop t.length) else Option.none

/-- The unit alternatives of `single_duration`, in source order, with the
nanosecond multiplier each maps to. -/
def DURATION_UNITS : List (List Char × ℤ) :=
  [(['n', 's'], 1), (['µ', 's'], NANOS_PER_MICRO), (['u', 's'], NANOS_PER_MICRO),
    (['m', 's'], NANOS_PER_MILLI), (['s'], NANOS_PER_SEC), (['m'], NANOS_PER_MIN),
    (['h'], NANOS_PER_HOUR), (['d'], NANOS_PER_DAY), (['w'], NANOS_PER_WEEK)]

/-- The `alt` over unit tags: first matching tag wins. -/
def altUnits : List (List Char × ℤ) → List Char → Option (List Char × ℤ)
  | [], _ => Option.none
  | (t, mult) :: rest, s =>
    match tagP t s with
    | some r => some (r, mult)
    | Option.none => altUnits rest s

/-- `single_duration`: an integer followed by a unit, yielding nanoseconds. -/
def single_duration (s : List Char) : Option (List Char × ℤ) :=
  match integer s with
  | Option.none => Option.none
  | some (rest, v) =>
    match altUnits DURATION_UNITS rest with
    | Option.none => Option.none
    | some (r, mult) => some (r, v * mult)

/-- The `fold_many1` loop of `duration`: keep consuming fragments while the
fragment parser succeeds, summing their values (fuel-driven for kernel
evaluation; each fragment consumes at least one character). -/
def durationFold : ℕ → List Char → ℤ → List Char × ℤ
  | 0, s, acc => (s, acc)
  | fuel+1, s, acc =>
    match single_duration s with
    | Option.none => (s, acc)
    | some (rest, v) => durationFold fuel rest (acc + v)

/-- The `duration` parser: one or more duration fragments, values summed. -/
def duration (s : List Char) : Option (List Char × Duration) :=
  match single_duration s with
  | Option.none => Option.none
  | some (rest, v) =>
    match durationFold s.length rest v with
    | (r, total) => some (r, ⟨total⟩)

/-- `duration` applied to a string, remaining input returned as a string. -/
def durationParse (s : String) : Option (String × Duration) :=
  match duration s.data with
  | Option.none => Option.none
  | some (r, d) => some (⟨r⟩, d)

/-! Properties of `bitlen`. -/

theorem bitlenAux_zero (fuel : ℕ) : bitlenAux fuel 0 = 0 := by
  cases fuel <;> simp [bitlenAux]

theorem bitlenAux_congr : ∀ f1 f2 n : ℕ, n ≤ f1 → n ≤ f2 → bitlenAux f1 n = bitlenAux f2 n := by
  intro f1
  induction f1 with
  | zero =>
    intro f2 n h1 _
    interval_cases n
    rw [bitlenAux_zero, bitlenAux_zero]
  | succ f ih =>
    intro f2 n h1 h2
    rcases Nat.eq_zero_or_pos n with hn | hn
    · subst hn; rw [bitlenAux_zero, bitlenAux_zero]
    · obtain ⟨g, rfl⟩ : ∃ g, f2 = g + 1 := ⟨f2 - 1, by omega⟩
      have hdiv : n / 2 < n := Nat.div_lt_self hn (by norm_num)
      simp only [bitlenAux, if_neg (Nat.pos_iff_ne_zero.mp hn)]
      rw [ih g (n / 2) (by omega) (by omega)]

theorem bitlen_div2 (n : ℕ) (hn : n ≠ 0) : bitlen n = bitlen (n / 2) + 1 := by
  have hpos : 0 < n := Nat.pos_of_ne_zero hn
  obtain ⟨f, rfl⟩ : ∃ f, n = f + 1 := ⟨n - 1, by omega⟩
  have hdiv : (f + 1) / 2 ≤ f := by omega
  show bitlenAux (f + 1) (f + 1) = bitlen ((f + 1) / 2) + 1
  simp only [bitlenAux, if_neg hn]
  rw [bitlenAux_congr f ((f + 1) / 2) ((f + 1) / 2) hdiv le_rfl]
  rfl

theorem bitlen_spec (n : ℕ) (hn : 0 < n) : 2 ^ (bitlen n - 1) ≤ n ∧ n < 2 ^ bitlen n := by
  induction n using Nat.strong_induction_on with
  | _ n ih =>
    rcases Nat.lt_or_ge n 2 with h2 | h2
    · interval_cases n
      · exact ⟨by decide, by decide⟩
    · have hn0 : n ≠ 0 := by omega
      have hstep := bitlen_div2 n hn0
      have hhalf : 0 < n / 2 := by omega
      have hlt : n / 2 < n := Nat.div_lt_self (by omega) (by norm_num)
      obtain ⟨hlow, hhigh⟩ := ih (n / 2) hlt hhalf
      have hb : 0 < bitlen (n / 2) := by
        by_contra hb
        have : bitlen (n / 2) = 0 := by omega
        rw [this] at hhigh
        omega
      constructor
      · have : 2 ^ (bitlen (n / 2) - 1 + 1) ≤ n / 2 * 2 := by
          rw [pow_succ]
          exact Nat.mul_le_mul_right 2 hlow
        have heq : bitlen (n / 2) - 1 + 1 = bitlen (n / 2) := by omega
        rw [heq] at this
        have : 2 ^ (bitlen (n / 2)) ≤ n := le_trans this (by omega)
        rw [hstep]
        simpa using this
      · have : n / 2 + 1 ≤ 2 ^ bitlen (n / 2) := hhigh
        have : n < 2 ^ bitlen (n / 2) * 2 := by omega
        rw [hstep, pow_succ]
        exact this

theorem bitlen_pos (n : ℕ) (hn : 0 < n) : 0 < bitlen n := by
  rcases Nat.eq_zero_or_pos (bitlen n) with h | h
  · exfalso
    have := (bitlen_spec n hn).2
    rw [h] at this
    omega
  · exact h

/-! Properties of round-to-nearest-even `rne` on ℚ. -/

theorem rne_cases (x : ℚ) : rne x = ⌊x⌋ ∨ rne x = ⌊x⌋ + 1 := by
  unfold rne
  split
  · exact Or.inl rfl
  split
  · exact Or.inr rfl
  split
  · exact Or.inl rfl
  · exact Or.inr rfl

theorem floor_le_rne (x : ℚ) : ⌊x⌋ ≤ rne x := by
  rcases rne_cases x with h | h <;> omega

theorem rne_le_floor_add_one (x : ℚ) : rne x ≤ ⌊x⌋ + 1 := by
  rcases rne_cases x with h | h <;> omega

theorem rne_eq_floor (x : ℚ) (h : x - ⌊x⌋ < 1/2) : rne x = ⌊x⌋ := by
  unfold rne
  rw [if_pos h]

theorem rne_eq_floor_add_one (x : ℚ) (h : 1/2 < x - ⌊x⌋) : rne x = ⌊x⌋ + 1 := by
  unfold rne
  rw [if_neg (by linarith), if_pos h]

theorem rne_intCast (m : ℤ) : rne (m : ℚ) = m := by
  have h : (m : ℚ) - ⌊(m : ℚ)⌋ < 1/2 := by
    rw [Int.floor_intCast]
    norm_num
  rw [rne_eq_floor _ h, Int.floor_intCast]

theorem rne_mono {x y : ℚ} (h : x ≤ y) : rne x ≤ rne y := by
  rcases lt_or_ge ⌊x⌋ ⌊y⌋ with hf | hf
  · calc rne x ≤ ⌊x⌋ + 1 := rne_le_floor_add_one x
    _ ≤ ⌊y⌋ := by omega
    _ ≤ rne y := floor_le_rne y
  · have hfe : ⌊x⌋ = ⌊y⌋ := le_antisymm (Int.floor_le_floor h) hf
    have hr : x - ⌊x⌋ ≤ y - ⌊y⌋ := by
      rw [hfe]
      exact sub_le_sub_right h _
    by_cases h1 : x - ⌊x⌋ < 1/2
    · rw [rne_eq_floor x h1, hfe]
      exact floor_le_rne y
    · by_cases h2 : 1/2 < y - ⌊y⌋
      · rw [rne_eq_floor_add_one y h2]
        calc rne x ≤ ⌊x⌋ + 1 := rne_le_floor_add_one x
        _ = ⌊y⌋ + 1 := by omega
      · have hx2 : x - ⌊x⌋ = 1/2 := le_antisymm (by linarith) (by linarith)
        have hy2 : y - ⌊y⌋ = 1/2 := le_antisymm (by linarith) (by linarith)
        have : x = y := by
          have := hx2.trans hy2.symm
          rw [hfe] at this
          linarith
        rw [this]

theorem rne_nonneg {x : ℚ} (h : 0 ≤ x) : 0 ≤ rne x := by
  have : (0:ℤ) ≤ ⌊x⌋ := by
    rw [Int.le_floor]
    exact_mod_cast h
  exact le_trans this (floor_le_rne x)

/-! Binade exponents. -/

theorem binade_bounds (n d : ℕ) (hn : 0 < n) (hd : 0 < d) :
    (2:ℚ) ^ ((bitlen n : ℤ) - (bitlen d : ℤ) - 1) ≤ (n : ℚ) / d ∧
      (n : ℚ) / d < 2 ^ ((bitlen n : ℤ) - (bitlen d : ℤ) + 1) := by
  obtain ⟨hnl, hnh⟩ := bitlen_spec n hn
  obtain ⟨hdl, hdh⟩ := bitlen_spec d hd
  have hbn := bitlen_pos n hn
  have hbd := bitlen_pos d hd
  have hnlq : (2:ℚ) ^ ((bitlen n : ℤ) - 1) ≤ (n : ℚ) := by
    have : ((bitlen n : ℤ) - 1) = ((bitlen n - 1 : ℕ) : ℤ) := by omega
    rw [this, zpow_natCast]
    exact_mod_cast hnl
  have hnhq : (n : ℚ) < 2 ^ (bitlen n : ℤ) := by
    rw [zpow_natCast]
    exact_mod_cast hnh
  have hdlq : (2:ℚ) ^ ((bitlen d : ℤ) - 1) ≤ (d : ℚ) := by
    have : ((bitlen d : ℤ) - 1) = ((bitlen d - 1 : ℕ) : ℤ) := by omega
    rw [this, zpow_natCast]
    exact_mod_cast hdl
  have hdhq : (d : ℚ) ≤ 2 ^ (bitlen d : ℤ) := by
    rw [zpow_natCast]
    exact_mod_cast hdh.le
  have hdq : (0:ℚ) < d := by exact_mod_cast hd
  constructor
  · calc (2:ℚ) ^ ((bitlen n : ℤ) - (bitlen d : ℤ) - 1)
        = 2 ^ ((bitlen n : ℤ) - 1) / 2 ^ (bitlen d : ℤ) := by
          rw [← zpow_sub₀ (by norm_num : (2:ℚ) ≠ 0)]
          ring_nf
    _ ≤ (n : ℚ) / d := div_le_div₀ (by positivity) hnlq hdq hdhq
  · calc (n : ℚ) / d
        < 2 ^ (bitlen n : ℤ) / 2 ^ ((bitlen d : ℤ) - 1) :=
          div_lt_div₀ hnhq hdlq (by positivity) (by positivity)
    _ = 2 ^ ((bitlen n : ℤ) - (bitlen d : ℤ) + 1) := by
          rw [← zpow_sub₀ (by norm_num : (2:ℚ) ≠ 0)]
          ring_nf

theorem binade_unique {x : ℚ} {e f : ℤ} (he1 : (2:ℚ) ^ e ≤ x) (he2 : x < 2 ^ (e + 1))
    (hf1 : (2:ℚ) ^ f ≤ x) (hf2 : x < 2 ^ (f + 1)) : e = f := by
  have h1 : (2:ℚ) ^ e < 2 ^ (f + 1) := lt_of_le_of_lt he1 hf2
  have h2 : (2:ℚ) ^ f < 2 ^ (e + 1) := lt_of_le_of_lt hf1 he2
  have h1' : e < f + 1 := (zpow_lt_zpow_iff_right₀ (by norm_num : (1:ℚ) < 2)).mp h1
  have h2' : f < e + 1 := (zpow_lt_zpow_iff_right₀ (by norm_num : (1:ℚ) < 2)).mp h2
  omega

theorem qexp_spec (x : ℚ) (hx : 0 < x) :
    (2:ℚ) ^ qexp x ≤ x ∧ x < 2 ^ (qexp x + 1) := by
  have hnum : 0 < x.num := Rat.num_pos.mpr hx
  have hn : 0 < x.num.toNat := by omega
  have hd : 0 < x.den := x.pos
  have hxnd : x = (x.num.toNat : ℚ) / (x.den : ℚ) := by
    rw [show ((x.num.toNat : ℕ) : ℚ) = ((x.num.toNat : ℤ) : ℚ) by push_cast; ring]
    rw [Int.toNat_of_nonneg hnum.le]
    exact (Rat.num_div_den x).symm
  obtain ⟨hlow, hhigh⟩ := binade_bounds x.num.toNat x.den hn hd
  rw [← hxnd] at hlow hhigh
  simp only [qexp]
  split
  · rename_i hlt
    constructor
    · exact hlow
    · have : (bitlen x.num.toNat : ℤ) - (bitlen x.den : ℤ) - 1 + 1
          = (bitlen x.num.toNat : ℤ) - (bitlen x.den : ℤ) := by ring
      rw [this]
      exact hlt
  · rename_i hge
    exact ⟨not_lt.mp hge, hhigh⟩

theorem le2pow_iff (e : ℤ) (p q : ℕ) (hq : 0 < q) :
    le2pow e p q = true ↔ (2:ℚ) ^ e ≤ (p : ℚ) / q := by
  have hqq : (0:ℚ) < q := by exact_mod_cast hq
  unfold le2pow
  split
  · rename_i he
    rw [decide_eq_true_eq, le_div_iff₀ hqq]
    have hcast : (2:ℚ) ^ e * q = ((q * 2 ^ e.toNat : ℕ) : ℚ) := by
      push_cast
      rw [← zpow_natCast (2:ℚ) e.toNat, Int.toNat_of_nonneg he]
      ring
    rw [hcast]
    exact ⟨fun h => by exact_mod_cast h, fun h => by exact_mod_cast h⟩
  · rename_i he
    rw [decide_eq_true_eq]
    have hpow : (2:ℚ) ^ e = 1 / 2 ^ ((-e).toNat) := by
      rw [← zpow_natCast (2:ℚ) (-e).toNat, Int.toNat_of_nonneg (by omega : (0:ℤ) ≤ -e),
        one_div, ← zpow_neg, neg_neg]
    rw [hpow, div_le_div_iff₀ (by positivity) hqq, one_mul]
    have hcast : (p : ℚ) * 2 ^ ((-e).toNat) = ((p * 2 ^ (-e).toNat : ℕ) : ℚ) := by
      push_cast
      ring
    rw [hcast]
    exact ⟨fun h => by exact_mod_cast h, fun h => by exact_mod_cast h⟩

theorem expPQ_spec (p q : ℕ) (hp : 0 < p) (hq : 0 < q) :
    (2:ℚ) ^ expPQ p q ≤ (p : ℚ) / q ∧ (p : ℚ) / q < 2 ^ (expPQ p q + 1) := by
  obtain ⟨hlow, hhigh⟩ := binade_bounds p q hp hq
  simp only [expPQ]
  split
  · rename_i hle
    exact ⟨(le2pow_iff _ p q hq).mp hle, hhigh⟩
  · rename_i hnle
    have : ¬ ((2:ℚ) ^ ((bitlen p : ℤ) - (bitlen q : ℤ)) ≤ (p : ℚ) / q) := by
      intro hc
      exact hnle ((le2pow_iff _ p q hq).mpr hc)
    constructor
    · exact hlow
    · have heq : (bitlen p : ℤ) - (bitlen q : ℤ) - 1 + 1
          = (bitlen p : ℤ) - (bitlen q : ℤ) := by ring
      rw [heq]
      exact not_le.mp this

theorem expPQ_eq_qexp (p q : ℕ) (hp : 0 < p) (hq : 0 < q) :
    expPQ p q = qexp ((p : ℚ) / q) := by
  have hx : (0:ℚ) < (p : ℚ) / q := by positivity
  obtain ⟨h1, h2⟩ := expPQ_spec p q hp hq
  obtain ⟨h3, h4⟩ := qexp_spec _ hx
  exact binade_unique h1 h2 h3 h4

/-! Properties of the ideal rounding `flq`. -/

theorem two_zpow_add (a b : ℤ) : (2:ℚ) ^ (a + b) = 2 ^ a * 2 ^ b :=
  zpow_add₀ (by norm_num) a b

theorem two_zpow_congr {a b : ℤ} (h : a = b) : (2:ℚ) ^ a = 2 ^ b := by rw [h]

theorem flq_of_nonpos {x : ℚ} (h : x ≤ 0) : flq x = 0 := by
  unfold flq
  rw [if_pos h]

theorem flq_of_pos {x : ℚ} (h : 0 < x) :
    flq x = (rne (x / 2 ^ (qexp x - 52)) : ℚ) * 2 ^ (qexp x - 52) := by
  unfold flq
  rw [if_neg (not_le.mpr h)]

theorem flq_nonneg (x : ℚ) : 0 ≤ flq x := by
  rcases le_or_lt x 0 with h | h
  · rw [flq_of_nonpos h]
  · rw [flq_of_pos h]
    have harg : (0:ℚ) ≤ x / 2 ^ (qexp x - 52) := by positivity
    have := rne_nonneg harg
    positivity

theorem flq_le_two_zpow {x : ℚ} (hx : 0 < x) : flq x ≤ 2 ^ (qexp x + 1) := by
  rw [flq_of_pos hx]
  obtain ⟨h1, h2⟩ := qexp_spec x hx
  have hpow : (0:ℚ) < 2 ^ (qexp x - 52) := by positivity
  have ht : x / 2 ^ (qexp x - 52) < 2 ^ (53:ℤ) := by
    rw [div_lt_iff₀ hpow, ← zpow_add₀ (by norm_num : (2:ℚ) ≠ 0)]
    calc x < 2 ^ (qexp x + 1) := h2
    _ = 2 ^ (53 + (qexp x - 52)) := by ring_nf
  have hfl : ⌊x / 2 ^ (qexp x - 52)⌋ < 2 ^ 53 := by
    rw [Int.floor_lt]
    calc x / 2 ^ (qexp x - 52) < (2:ℚ) ^ (53:ℤ) := ht
    _ = (((2:ℤ) ^ (53:ℕ) : ℤ) : ℚ) := by norm_num
  have hrne : rne (x / 2 ^ (qexp x - 52)) ≤ 2 ^ 53 := by
    have := rne_le_floor_add_one (x / 2 ^ (qexp x - 52))
    omega
  calc (rne (x / 2 ^ (qexp x - 52)) : ℚ) * 2 ^ (qexp x - 52)
      ≤ ((2:ℤ) ^ (53:ℕ) : ℚ) * 2 ^ (qexp x - 52) := by
        apply mul_le_mul_of_nonneg_right _ hpow.le
        exact_mod_cast hrne
  _ = 2 ^ (53:ℤ) * 2 ^ (qexp x - 52) := by norm_num
  _ = 2 ^ (qexp x + 1) := by
        rw [← zpow_add₀ (by norm_num : (2:ℚ) ≠ 0)]
        ring_nf

theorem two_zpow_le_flq {x : ℚ} (hx : 0 < x) : 2 ^ qexp x ≤ flq x := by
  rw [flq_of_pos hx]
  obtain ⟨h1, h2⟩ := qexp_spec x hx
  have hpow : (0:ℚ) < 2 ^ (qexp x - 52) := by positivity
  have ht : (2:ℚ) ^ (52:ℤ) ≤ x / 2 ^ (qexp x - 52) := by
    rw [le_div_iff₀ hpow, ← zpow_add₀ (by norm_num : (2:ℚ) ≠ 0)]
    calc (2:ℚ) ^ (52 + (qexp x - 52)) = 2 ^ qexp x := by ring_nf
    _ ≤ x := h1
  have hfl : (2:ℤ) ^ (52:ℕ) ≤ ⌊x / 2 ^ (qexp x - 52)⌋ := by
    rw [Int.le_floor]
    calc (((2:ℤ) ^ (52:ℕ) : ℤ) : ℚ) = (2:ℚ) ^ (52:ℤ) := by norm_num
    _ ≤ x / 2 ^ (qexp x - 52) := ht
  have hrne : (2:ℤ) ^ (52:ℕ) ≤ rne (x / 2 ^ (qexp x - 52)) :=
    le_trans hfl (floor_le_rne _)
  calc (2:ℚ) ^ qexp x = 2 ^ (52:ℤ) * 2 ^ (qexp x - 52) := by
        rw [← zpow_add₀ (by norm_num : (2:ℚ) ≠ 0)]
        ring_nf
  _ ≤ (rne (x / 2 ^ (qexp x - 52)) : ℚ) * 2 ^ (qexp x - 52) := by
        apply mul_le_mul_of_nonneg_right _ hpow.le
        calc (2:ℚ) ^ (52:ℤ) = (((2:ℤ) ^ (52:ℕ) : ℤ) : ℚ) := by norm_num
        _ ≤ (rne (x / 2 ^ (qexp x - 52)) : ℚ) := by exact_mod_cast hrne

theorem qexp_le_qexp {x y : ℚ} (hx : 0 < x) (h : x ≤ y) : qexp x ≤ qexp y := by
  have hy : 0 < y := lt_of_lt_of_le hx h
  obtain ⟨hx1, _⟩ := qexp_spec x hx
  obtain ⟨_, hy2⟩ := qexp_spec y hy
  have : (2:ℚ) ^ qexp x < 2 ^ (qexp y + 1) := lt_of_le_of_lt (le_trans hx1 h) hy2
  have := (zpow_lt_zpow_iff_right₀ (by norm_num : (1:ℚ) < 2)).mp this
  omega

theorem flq_mono {x y : ℚ} (h : x ≤ y) : flq x ≤ flq y := by
  rcases le_or_lt x 0 with hx | hx
  · rw [flq_of_nonpos hx]
    exact flq_nonneg y
  · have hy : 0 < y := lt_of_lt_of_le hx h
    have hexy : qexp x ≤ qexp y := qexp_le_qexp hx h
    rcases eq_or_lt_of_le hexy with heq | hlt
    · rw [flq_of_pos hx, flq_of_pos hy, heq]
      apply mul_le_mul_of_nonneg_right _ (by positivity)
      have : x / 2 ^ (qexp y - 52) ≤ y / 2 ^ (qexp y - 52) := by
        apply div_le_div_of_nonneg_right h -- placeholder, fixed below if name differs
        positivity
      exact_mod_cast rne_mono this
    · calc flq x ≤ 2 ^ (qexp x + 1) := flq_le_two_zpow hx
      _ ≤ 2 ^ qexp y := zpow_le_zpow_right₀ (by norm_num) (by omega)
      _ ≤ flq y := two_zpow_le_flq hy

theorem flq_natCast (n : ℕ) (hn : n < 2 ^ 53) : flq (n : ℚ) = n := by
  rcases Nat.eq_zero_or_pos n with h0 | hpos
  · subst h0
    simp [flq_of_nonpos]
  · have hx : (0:ℚ) < n := by exact_mod_cast hpos
    rw [flq_of_pos hx]
    obtain ⟨h1, h2⟩ := qexp_spec (n : ℚ) hx
    have he52 : qexp (n : ℚ) ≤ 52 := by
      have hlt : (2:ℚ) ^ qexp (n : ℚ) < 2 ^ (53:ℤ) := by
        calc (2:ℚ) ^ qexp (n : ℚ) ≤ (n : ℚ) := h1
        _ < 2 ^ (53:ℤ) := by
            have : (n : ℚ) < ((2 ^ 53 : ℕ) : ℚ) := by exact_mod_cast hn
            calc (n:ℚ) < ((2 ^ 53 : ℕ) : ℚ) := this
            _ = 2 ^ (53:ℤ) := by norm_num
      have := (zpow_lt_zpow_iff_right₀ (by norm_num : (1:ℚ) < 2)).mp hlt
      omega
    have he0 : 0 ≤ qexp (n : ℚ) := by
      by_contra hneg
      push_neg at hneg
      have : (2:ℚ) ^ (qexp (n : ℚ) + 1) ≤ 2 ^ (0:ℤ) :=
        zpow_le_zpow_right₀ (by norm_num) (by omega)
      rw [zpow_zero] at this
      have hn1 : (1:ℚ) ≤ (n:ℚ) := by exact_mod_cast hpos
      linarith
    set e := qexp (n : ℚ) with hedef
    have hk : ((52 - e).toNat : ℤ) = 52 - e := Int.toNat_of_nonneg (by omega)
    have hsplit : (2:ℚ) ^ ((52 - e).toNat : ℤ) * 2 ^ (e - 52) = 1 := by
      rw [← two_zpow_add, hk]
      norm_num
    have harg : (n : ℚ) / 2 ^ (e - 52) = ((n * 2 ^ (52 - e).toNat : ℕ) : ℚ) := by
      push_cast
      rw [div_eq_iff (by positivity : ((2:ℚ) ^ (e - 52)) ≠ 0)]
      rw [mul_assoc, ← zpow_natCast (2:ℚ) (52 - e).toNat, hsplit, mul_one]
    rw [harg]
    have hrne : rne (((n * 2 ^ (52 - e).toNat : ℕ) : ℚ)) = ((n * 2 ^ (52 - e).toNat : ℕ) : ℤ) := by
      rw [show (((n * 2 ^ (52 - e).toNat : ℕ) : ℚ)) = (((n * 2 ^ (52 - e).toNat : ℕ) : ℤ) : ℚ)
        by push_cast; ring]
      exact rne_intCast _
    rw [hrne]
    push_cast
    rw [mul_assoc, ← zpow_natCast (2:ℚ) (52 - e).toNat, hsplit, mul_one]

theorem flq_one : flq 1 = 1 := by
  have := flq_natCast 1 (by norm_num)
  simpa using this

theorem flq_mul_two_zpow (x : ℚ) (t : ℤ) : flq (x * 2 ^ t) = flq x * 2 ^ t := by
  rcases le_or_lt x 0 with hx | hx
  · have hxt : x * 2 ^ t ≤ 0 :=
      mul_nonpos_iff.mpr (Or.inr ⟨hx, by positivity⟩)
    rw [flq_of_nonpos hx, flq_of_nonpos hxt, zero_mul]
  · have hxt : 0 < x * 2 ^ t := by positivity
    have hq : qexp (x * 2 ^ t) = qexp x + t := by
      obtain ⟨h1, h2⟩ := qexp_spec x hx
      obtain ⟨h3, h4⟩ := qexp_spec (x * 2 ^ t) hxt
      refine binade_unique h3 h4 ?_ ?_
      · rw [zpow_add₀ (by norm_num : (2:ℚ) ≠ 0)]
        exact mul_le_mul_of_nonneg_right h1 (by positivity)
      · have : x * 2 ^ t < 2 ^ (qexp x + 1) * 2 ^ t :=
          mul_lt_mul_of_pos_right h2 (by positivity)
        calc x * 2 ^ t < 2 ^ (qexp x + 1) * 2 ^ t := this
        _ = 2 ^ (qexp x + t + 1) := by
            rw [← zpow_add₀ (by norm_num : (2:ℚ) ≠ 0)]
            ring_nf
    rw [flq_of_pos hx, flq_of_pos hxt, hq]
    have harg : x * 2 ^ t / 2 ^ (qexp x + t - 52) = x / 2 ^ (qexp x - 52) := by
      rw [div_eq_div_iff (by positivity) (by positivity), mul_assoc, ← two_zpow_add]
      rw [two_zpow_congr (show t + (qexp x - 52) = qexp x + t - 52 by ring)]
    have hpow : (2:ℚ) ^ (qexp x + t - 52) = 2 ^ (qexp x - 52) * 2 ^ t := by
      rw [← two_zpow_add]
      exact two_zpow_congr (by ring)
    rw [harg, hpow, mul_assoc]

/-! Bridge: the executable integer arithmetic implements ideal rounding. -/

theorem rnePQ_eq (p q : ℕ) (hq : 0 < q) : (rnePQ p q : ℤ) = rne ((p : ℚ) / q) := by
  have hqq : (0:ℚ) < q := by exact_mod_cast hq
  have hq0 : (q:ℚ) ≠ 0 := ne_of_gt hqq
  have hfl : ⌊(p:ℚ)/q⌋ = ((p / q : ℕ) : ℤ) := by
    have h := Rat.floor_intCast_div_natCast (p : ℤ) q
    rw [show (((p:ℤ) : ℚ)) = (p:ℚ) by push_cast; ring] at h
    rw [h]
    exact (Int.natCast_div p q).symm
  have hfr : (p:ℚ)/q - (⌊(p:ℚ)/q⌋ : ℚ) = ((p % q : ℕ) : ℚ) / q := by
    rw [hfl]
    have hcast : (q:ℚ) * ((p / q : ℕ) : ℚ) + ((p % q : ℕ) : ℚ) = (p:ℚ) := by
      exact_mod_cast congrArg (fun k : ℕ => (k : ℚ)) (Nat.div_add_mod p q)
    have hcc : (((p / q : ℕ) : ℤ) : ℚ) = ((p / q : ℕ) : ℚ) := Int.cast_natCast _
    rw [hcc, eq_div_iff hq0, sub_mul, div_mul_cancel₀ (p:ℚ) hq0]
    linarith
  unfold rne rnePQ
  by_cases h1 : 2 * (p % q) < q
  · have hr : (p:ℚ)/q - (⌊(p:ℚ)/q⌋ : ℚ) < 1/2 := by
      rw [hfr, div_lt_iff₀ hqq]
      have : ((2 * (p % q) : ℕ) : ℚ) < (q:ℚ) := by exact_mod_cast h1
      push_cast at this
      linarith
    rw [if_pos h1, if_pos hr, hfl]
  · by_cases h2 : q < 2 * (p % q)
    · have hr : 1/2 < (p:ℚ)/q - (⌊(p:ℚ)/q⌋ : ℚ) := by
        rw [hfr, lt_div_iff₀ hqq]
        have : (q:ℚ) < ((2 * (p % q) : ℕ) : ℚ) := by exact_mod_cast h2
        push_cast at this
        linarith
      rw [if_neg h1, if_pos h2, if_neg (not_lt.mpr hr.le), if_pos hr, hfl]
      push_cast
      ring
    · have hmod : 2 * (p % q) = q := by omega
      have hr : (p:ℚ)/q - (⌊(p:ℚ)/q⌋ : ℚ) = 1/2 := by
        rw [hfr, div_eq_div_iff hq0 (by norm_num : (2:ℚ) ≠ 0)]
        have : ((2 * (p % q) : ℕ) : ℚ) = (q:ℚ) := by exact_mod_cast congrArg (fun k : ℕ => (k:ℚ)) hmod
        push_cast at this
        linarith
      have hc1 : ¬ ((p:ℚ)/q - (⌊(p:ℚ)/q⌋ : ℚ) < 1/2) := by
        rw [hr]
        exact lt_irrefl _
      have hc2 : ¬ ((1:ℚ)/2 < (p:ℚ)/q - (⌊(p:ℚ)/q⌋ : ℚ)) := by
        rw [hr]
        exact lt_irrefl _
      rw [if_neg h1, if_neg h2, if_neg hc1, if_neg hc2]
      by_cases hpar : p / q % 2 = 0
      · have hpar2 : ⌊(p:ℚ)/q⌋ % 2 = 0 := by
          rw [hfl]
          omega
        rw [if_pos hpar, if_pos hpar2, hfl]
      · have hpar2 : ¬ (⌊(p:ℚ)/q⌋ % 2 = 0) := by
          rw [hfl]
          omega
        rw [if_neg hpar, if_neg hpar2, hfl]
        push_cast
        ring

theorem roundRat_val (p q : ℕ) (hq : 0 < q) : (roundRat p q).val = flq ((p : ℚ) / q) := by
  have hqq : (0:ℚ) < q := by exact_mod_cast hq
  rcases Nat.eq_zero_or_pos p with h0 | hp
  · subst h0
    show F64.val ⟨0, 0⟩ = flq ((0 : ℚ) / q)
    rw [zero_div, flq_of_nonpos le_rfl]
    show ((0:ℕ) : ℚ) * 2 ^ (0:ℤ) = 0
    norm_num
  · have hx : (0:ℚ) < (p:ℚ)/q := by positivity
    simp only [roundRat, if_neg (Nat.pos_iff_ne_zero.mp hp)]
    rw [flq_of_pos hx, ← expPQ_eq_qexp p q hp hq]
    set e := expPQ p q with hedef
    split
    · rename_i hk
      show ((rnePQ (p * 2 ^ (52 - e).toNat) q : ℕ) : ℚ) * 2 ^ (e - 52)
          = (rne ((p:ℚ)/q / 2 ^ (e - 52)) : ℚ) * 2 ^ (e - 52)
      have hpn : ((p * 2 ^ (52 - e).toNat : ℕ) : ℚ) / q = (p:ℚ)/q / 2 ^ (e - 52) := by
        have hrw : (p:ℚ)/q / 2 ^ (e - 52) = (p:ℚ)/q * 2 ^ (((52 - e).toNat : ℤ)) := by
          rw [div_eq_mul_inv ((p:ℚ)/q), ← zpow_neg,
            two_zpow_congr (show -(e - 52) = (((52 - e).toNat : ℤ)) by omega)]
        rw [hrw, zpow_natCast]
        push_cast
        ring
      have hz := rnePQ_eq (p * 2 ^ (52 - e).toNat) q hq
      rw [hpn] at hz
      calc ((rnePQ (p * 2 ^ (52 - e).toNat) q : ℕ) : ℚ) * 2 ^ (e - 52)
          = ((rnePQ (p * 2 ^ (52 - e).toNat) q : ℤ) : ℚ) * 2 ^ (e - 52) := by push_cast; ring
      _ = (rne ((p:ℚ)/q / 2 ^ (e - 52)) : ℚ) * 2 ^ (e - 52) := by rw [hz]
    · rename_i hk
      show ((rnePQ p (q * 2 ^ (-(52 - e)).toNat) : ℕ) : ℚ) * 2 ^ (e - 52)
          = (rne ((p:ℚ)/q / 2 ^ (e - 52)) : ℚ) * 2 ^ (e - 52)
      have hqn : 0 < q * 2 ^ (-(52 - e)).toNat := by positivity
      have hpn : ((p : ℕ) : ℚ) / ((q * 2 ^ (-(52 - e)).toNat : ℕ) : ℚ) = (p:ℚ)/q / 2 ^ (e - 52) := by
        rw [div_div]
        push_cast
        rw [← zpow_natCast (2:ℚ) ((-(52 - e)).toNat),
          two_zpow_congr (show (((-(52 - e)).toNat : ℤ)) = e - 52 by omega)]
      have hz := rnePQ_eq p (q * 2 ^ (-(52 - e)).toNat) hqn
      rw [hpn] at hz
      calc ((rnePQ p (q * 2 ^ (-(52 - e)).toNat) : ℕ) : ℚ) * 2 ^ (e - 52)
          = ((rnePQ p (q * 2 ^ (-(52 - e)).toNat) : ℤ) : ℚ) * 2 ^ (e - 52) := by push_cast; ring
      _ = (rne ((p:ℚ)/q / 2 ^ (e - 52)) : ℚ) * 2 ^ (e - 52) := by rw [hz]

theorem f64ofNat_val (n : ℕ) : (f64ofNat n).val = flq (n : ℚ) := by
  unfold f64ofNat
  rw [roundRat_val n 1 Nat.one_pos]
  norm_num

theorem f64mul_val (a b : F64) : (f64mul a b).val = flq (a.val * b.val) := by
  simp only [f64mul]
  show ((roundRat (a.m * b.m) 1).m : ℚ) * 2 ^ ((roundRat (a.m * b.m) 1).e + (a.e + b.e))
      = flq (a.val * b.val)
  rw [two_zpow_add, ← mul_assoc]
  have hr : ((roundRat (a.m * b.m) 1).m : ℚ) * 2 ^ (roundRat (a.m * b.m) 1).e
      = flq ((a.m * b.m : ℕ) : ℚ) := by
    have h := roundRat_val (a.m * b.m) 1 Nat.one_pos
    unfold F64.val at h
    rw [h]
    norm_num
  rw [hr, ← flq_mul_two_zpow]
  congr 1
  unfold F64.val
  push_cast
  rw [two_zpow_add]
  ring

theorem f64div_val (a b : F64) (hb : 0 < b.m) : (f64div a b).val = flq (a.val / b.val) := by
  simp only [f64div]
  show ((roundRat a.m b.m).m : ℚ) * 2 ^ ((roundRat a.m b.m).e + (a.e - b.e))
      = flq (a.val / b.val)
  rw [two_zpow_add, ← mul_assoc]
  have hr : ((roundRat a.m b.m).m : ℚ) * 2 ^ (roundRat a.m b.m).e
      = flq ((a.m : ℚ) / (b.m : ℚ)) := by
    have h := roundRat_val a.m b.m hb
    unfold F64.val at h
    rw [h]
  rw [hr, ← flq_mul_two_zpow]
  congr 1
  unfold F64.val
  have hbm : ((b.m : ℚ)) ≠ 0 := by
    have : (0:ℚ) < b.m := by exact_mod_cast hb
    exact ne_of_gt this
  have hbe : ((2:ℚ) ^ b.e) ≠ 0 := by positivity
  rw [zpow_sub₀ (by norm_num : (2:ℚ) ≠ 0)]
  field_simp

theorem F64.ltOne_iff (x : F64) : x.ltOne = true ↔ x.val < 1 := by
  unfold F64.ltOne F64.val
  split
  · rename_i he
    rw [decide_eq_true_eq]
    constructor
    · intro h
      rw [h]
      norm_num
    · intro h
      by_contra hm
      have hm1 : 1 ≤ x.m := by omega
      have h1 : (1:ℚ) ≤ (x.m : ℚ) := by exact_mod_cast hm1
      have h2 : (1:ℚ) ≤ 2 ^ x.e := one_le_zpow₀ (by norm_num) he
      nlinarith
  · rename_i he
    rw [decide_eq_true_eq]
    have hee : x.e = -(((-x.e).toNat : ℤ)) := by omega
    have hpow : (2:ℚ) ^ x.e = (2 ^ ((-x.e).toNat : ℕ) : ℚ)⁻¹ := by
      rw [← zpow_natCast (2:ℚ) ((-x.e).toNat), ← zpow_neg, ← hee]
    rw [hpow, ← div_eq_mul_inv, div_lt_one (by positivity)]
    constructor
    · intro h
      exact_mod_cast (by exact_mod_cast h : ((x.m : ℕ) : ℚ) < ((2 ^ (-x.e).toNat : ℕ) : ℚ))
    · intro h
      exact_mod_cast (by exact_mod_cast h : ((x.m : ℕ) : ℚ) < ((2 ^ (-x.e).toNat : ℕ) : ℚ))

theorem F64.trunc_eq (x : F64) : (x.trunc : ℤ) = ⌊x.val⌋ := by
  unfold F64.trunc F64.val
  split
  · rename_i he
    have hpow : (2:ℚ) ^ x.e = ((2 ^ x.e.toNat : ℕ) : ℚ) := by
      push_cast
      rw [← zpow_natCast (2:ℚ) x.e.toNat, Int.toNat_of_nonneg he]
    rw [hpow]
    rw [show ((x.m : ℚ) * ((2 ^ x.e.toNat : ℕ) : ℚ)) = (((x.m * 2 ^ x.e.toNat : ℕ) : ℕ) : ℚ)
      by push_cast; ring]
    rw [Int.floor_natCast]
  · rename_i he
    have hee : x.e = -(((-x.e).toNat : ℤ)) := by omega
    have hpow : (2:ℚ) ^ x.e = (2 ^ ((-x.e).toNat : ℕ) : ℚ)⁻¹ := by
      rw [← zpow_natCast (2:ℚ) ((-x.e).toNat), ← zpow_neg, ← hee]
    rw [hpow, ← div_eq_mul_inv]
    rw [show ((2:ℚ) ^ ((-x.e).toNat : ℕ)) = ((2 ^ (-x.e).toNat : ℕ) : ℚ) by push_cast; ring]
    have h := Rat.floor_intCast_div_natCast (x.m : ℤ) (2 ^ (-x.e).toNat)
    rw [show (((x.m : ℤ)) : ℚ) = (x.m : ℚ) by push_cast; ring] at h
    rw [h]
    exact (Int.natCast_div x.m (2 ^ (-x.e).toNat)).symm

theorem F64.val_nonneg (x : F64) : 0 ≤ x.val := by
  unfold F64.val
  positivity

theorem F64.m_pos_of_val_pos {x : F64} (h : 0 < x.val) : 0 < x.m := by
  by_contra hm
  have : x.m = 0 := by omega
  unfold F64.val at h
  rw [this] at h
  norm_num at h

/-! Analysis of `compute_permits`. -/

/-- Share of the total permits requested for a job, before squaring:
`columns as f64 / SINGLE_THREADED_COLUMN_COUNT as f64`. -/
def shareF (c : ℕ) : F64 := f64div (f64ofNat c) (f64ofNat SINGLE_THREADED_COLUMN_COUNT)

/-- The binary64 value `total_permits as f64 * share * share` (the Rust
multiplication is left associated). -/
def permitsF (t c : ℕ) : F64 := f64mul (f64mul (f64ofNat t) (shareF c)) (shareF c)

theorem compute_permits_eq (t c : ℕ) :
    compute_permits t c =
      if SINGLE_THREADED_COLUMN_COUNT ≤ c then t % 2 ^ 32
      else if (permitsF t c).ltOne then 1 else min (2 ^ 32 - 1) (permitsF t c).trunc := rfl

theorem f64ofNat_100_val : (f64ofNat SINGLE_THREADED_COLUMN_COUNT).val = 100 := by
  rw [f64ofNat_val]
  have := flq_natCast SINGLE_THREADED_COLUMN_COUNT (by norm_num [SINGLE_THREADED_COLUMN_COUNT])
  rw [this]
  norm_num [SINGLE_THREADED_COLUMN_COUNT]

theorem shareF_val (c : ℕ) (hc : c < 100) : (shareF c).val = flq ((c : ℚ) / 100) := by
  unfold shareF
  have hm : 0 < (f64ofNat SINGLE_THREADED_COLUMN_COUNT).m :=
    F64.m_pos_of_val_pos (by rw [f64ofNat_100_val]; norm_num)
  rw [f64div_val _ _ hm, f64ofNat_val, f64ofNat_100_val]
  rw [flq_natCast c (by omega)]

theorem shareF_val_le_one (c : ℕ) (hc : c < 100) : (shareF c).val ≤ 1 := by
  rw [shareF_val c hc]
  calc flq ((c : ℚ) / 100) ≤ flq 1 := by
        apply flq_mono
        rw [div_le_one (by norm_num : (0:ℚ) < 100)]
        exact_mod_cast hc.le
  _ = 1 := flq_one

theorem shareF_val_mono {c1 c2 : ℕ} (hc2 : c2 < 100) (h : c1 ≤ c2) :
    (shareF c1).val ≤ (shareF c2).val := by
  rw [shareF_val c1 (by omega), shareF_val c2 hc2]
  apply flq_mono
  apply div_le_div_of_nonneg_right ?_ ?_ -- placeholder names; fixed on compile
  · exact_mod_cast h
  · norm_num

theorem permitsF_val (t c : ℕ) (ht : t < 2 ^ 53) :
    (permitsF t c).val = flq (flq ((t : ℚ) * (shareF c).val) * (shareF c).val) := by
  unfold permitsF
  rw [f64mul_val, f64mul_val, f64ofNat_val, flq_natCast t ht]

theorem permitsF_val_mono (t : ℕ) (ht : t < 2 ^ 53) {c1 c2 : ℕ} (hc2 : c2 < 100)
    (hc : c1 ≤ c2) : (permitsF t c1).val ≤ (permitsF t c2).val := by
  rw [permitsF_val t c1 ht, permitsF_val t c2 ht]
  have ht0 : (0:ℚ) ≤ (t : ℚ) := by positivity
  have hs0 : (0:ℚ) ≤ (shareF c1).val := F64.val_nonneg _
  have hs : (shareF c1).val ≤ (shareF c2).val := shareF_val_mono hc2 hc
  have h1 : (t : ℚ) * (shareF c1).val ≤ (t : ℚ) * (shareF c2).val :=
    mul_le_mul_of_nonneg_left hs ht0
  have h2 : flq ((t : ℚ) * (shareF c1).val) ≤ flq ((t : ℚ) * (shareF c2).val) := flq_mono h1
  have h3 : flq ((t : ℚ) * (shareF c1).val) * (shareF c1).val
      ≤ flq ((t : ℚ) * (shareF c2).val) * (shareF c2).val :=
    mul_le_mul h2 hs hs0 (flq_nonneg _)
  exact flq_mono h3

theorem permitsF_val_le (t c : ℕ) (ht : t < 2 ^ 53) (hc : c < 100) :
    (permitsF t c).val ≤ (t : ℚ) := by
  rw [permitsF_val t c ht]
  have ht0 : (0:ℚ) ≤ (t : ℚ) := by positivity
  have hs0 : (0:ℚ) ≤ (shareF c).val := F64.val_nonneg _
  have hs1 : (shareF c).val ≤ 1 := shareF_val_le_one c hc
  have hflt : flq ((t : ℚ)) = (t : ℚ) := flq_natCast t ht
  have h1 : (t : ℚ) * (shareF c).val ≤ (t : ℚ) := mul_le_of_le_one_right ht0 hs1
  have h2 : flq ((t : ℚ) * (shareF c).val) ≤ (t : ℚ) := by
    calc flq ((t : ℚ) * (shareF c).val) ≤ flq ((t : ℚ)) := flq_mono h1
    _ = (t : ℚ) := hflt
  have h3 : flq ((t : ℚ) * (shareF c).val) * (shareF c).val ≤ (t : ℚ) := by
    calc flq ((t : ℚ) * (shareF c).val) * (shareF c).val
        ≤ (t : ℚ) * 1 := mul_le_mul h2 hs1 hs0 ht0
    _ = (t : ℚ) := mul_one _
  calc flq (flq ((t : ℚ) * (shareF c).val) * (shareF c).val) ≤ flq ((t : ℚ)) := flq_mono h3
  _ = (t : ℚ) := hflt

theorem compute_permits_le_total (t c : ℕ) (ht1 : 1 ≤ t) (ht : t < 2 ^ 32) (hc : c < 100) :
    compute_permits t c ≤ t := by
  rw [compute_permits_eq, if_neg (by simp only [SINGLE_THREADED_COLUMN_COUNT]; omega)]
  split
  · exact ht1
  · rename_i hlt
    have ht53 : t < 2 ^ 53 := by omega
    have hle := permitsF_val_le t c ht53 hc
    have htr : ((permitsF t c).trunc : ℤ) ≤ (t : ℤ) := by
      rw [F64.trunc_eq]
      calc ⌊(permitsF t c).val⌋ ≤ ⌊(t : ℚ)⌋ := Int.floor_le_floor hle
      _ = (t : ℤ) := by
          rw [show ((t : ℚ)) = (((t : ℤ)) : ℚ) by push_cast; ring, Int.floor_intCast]
    have : (permitsF t c).trunc ≤ t := by exact_mod_cast htr
    calc min (2 ^ 32 - 1) (permitsF t c).trunc ≤ (permitsF t c).trunc := min_le_right _ _
    _ ≤ t := this

theorem compute_permits_ge_one (t c : ℕ) (hc : c < 100) : 1 ≤ compute_permits t c := by
  rw [compute_permits_eq, if_neg (by simp only [SINGLE_THREADED_COLUMN_COUNT]; omega)]
  split
  · exact le_rfl
  · rename_i hlt
    have hval : 1 ≤ (permitsF t c).val := by
      by_contra hcon
      exact hlt ((F64.ltOne_iff _).mpr (not_le.mp hcon))
    have htr : (1 : ℤ) ≤ ((permitsF t c).trunc : ℤ) := by
      rw [F64.trunc_eq]
      rw [Int.le_floor]
      exact_mod_cast hval
    have h1 : 1 ≤ (permitsF t c).trunc := by exact_mod_cast htr
    exact le_min (by norm_num) h1

theorem compute_permits_all (total c : ℕ) (ht : total < 2 ^ 32) (hc : 100 ≤ c) :
    compute_permits total c = total := by
  rw [compute_permits_eq, if_pos (by simp only [SINGLE_THREADED_COLUMN_COUNT]; omega)]
  exact Nat.mod_eq_of_lt ht

/-- C1 (counterexample): the claim's general formula fails on the code.  At
`total_permits = 500`, `columns = 70` the binary64 computation rounds just
below the exact value (`(500·0.7)·0.7` rounds to `244.99999999999994`), so the
code returns `244` while `max 1 ⌊500·(70/100)²⌋ = 245`; and at
`total_permits = 2 ^ 32`, `columns = 100` the cast `total_permits as u32`
wraps to `0`, not `2 ^ 32`. -/
theorem compute_permits_floor_formula_counterexample :
    compute_permits 500 70 ≠ max 1 (500 * 70 ^ 2 / 100 ^ 2) ∧
      compute_permits (2 ^ 32) 100 ≠ 2 ^ 32 := by
  constructor
  · decide
  · decide

/-- C1 (amended): `compute_permits` satisfies the spec's concrete table, the
closed-form `max 1 ⌊total·(columns/100)²⌋` holds throughout the table's row
`total_permits = 100` for every `columns < 100`, and for `columns ≥ 100` the
result is `total_permits` whenever `total_permits < 2 ^ 32` (beyond that the
Rust `as u32` cast truncates). -/
theorem compute_permits_spec_table :
    compute_permits 100 1 = 1 ∧ compute_permits 100 10 = 1 ∧
    compute_permits 100 20 = 4 ∧ compute_permits 100 50 = 25 ∧
    compute_permits 100 100 = 100 ∧ compute_permits 100 10000 = 100 ∧
    (∀ c : ℕ, c < 100 → compute_permits 100 c = max 1 (100 * c ^ 2 / 100 ^ 2)) ∧
    (∀ total c : ℕ, total < 2 ^ 32 → 100 ≤ c → compute_permits total c = total) := by
  refine ⟨by decide, by decide, by decide, by decide, by decide, by decide, by decide, ?_⟩
  exact compute_permits_all

/-- C1 (witness): the amended claim instantiated at concrete inputs. -/
theorem compute_permits_spec_table_witness :
    compute_permits 100 35 = max 1 (100 * 35 ^ 2 / 100 ^ 2) ∧ compute_permits 7 350 = 7 :=
  ⟨compute_permits_spec_table.2.2.2.2.2.2.1 35 (by decide),
    compute_permits_spec_table.2.2.2.2.2.2.2 7 350 (by decide) (by decide)⟩

/-- C2 (counterexample): monotonicity in the column count fails as universally
stated.  At `total_permits = 0` the low-column branch clamps to `1` while the
`columns ≥ 100` branch returns `0`; and at `total_permits = 2 ^ 32` the
`as u32` cast wraps, so the result for `columns = 100` is `0`, not the total. -/
theorem compute_permits_monotone_counterexample :
    ¬ (compute_permits 0 1 ≤ compute_permits 0 100) ∧
      compute_permits (2 ^ 32) 100 ≠ 2 ^ 32 := by
  constructor
  · decide
  · decide

/-- C2 (amended): for `1 ≤ total_permits < 2 ^ 32` (every value representable
in the `u32` return type, with at least one permit available),
`compute_permits total_permits · ` is non-decreasing in the column count, and
for `columns ≥ 100` it returns exactly `total_permits`. -/
theorem compute_permits_monotone :
    (∀ total c1 c2 : ℕ, 1 ≤ total → total < 2 ^ 32 → c1 ≤ c2 →
      compute_permits total c1 ≤ compute_permits total c2) ∧
    (∀ total c : ℕ, total < 2 ^ 32 → 100 ≤ c → compute_permits total c = total) := by
  refine ⟨?_, compute_permits_all⟩
  intro total c1 c2 h1 h32 hc
  by_cases hb2 : 100 ≤ c2
  · rw [compute_permits_all total c2 h32 hb2]
    by_cases hb1 : 100 ≤ c1
    · rw [compute_permits_all total c1 h32 hb1]
    · exact compute_permits_le_total total c1 h1 h32 (by omega)
  · have hb1 : c1 < 100 := by omega
    have hb2' : c2 < 100 := by omega
    have ht53 : total < 2 ^ 53 := by omega
    have hmono := permitsF_val_mono total ht53 hb2' hc
    have hnc1 : ¬ (SINGLE_THREADED_COLUMN_COUNT ≤ c1) := by
      simp only [SINGLE_THREADED_COLUMN_COUNT]
      omega
    have hnc2 : ¬ (SINGLE_THREADED_COLUMN_COUNT ≤ c2) := by
      simp only [SINGLE_THREADED_COLUMN_COUNT]
      omega
    rw [compute_permits_eq, compute_permits_eq, if_neg hnc1, if_neg hnc2]
    by_cases hlt1 : (permitsF total c1).ltOne
    · rw [if_pos hlt1]
      split
      · exact le_rfl
      · rename_i hlt2
        have hval : 1 ≤ (permitsF total c2).val := by
          by_contra hcon
          exact hlt2 ((F64.ltOne_iff _).mpr (not_le.mp hcon))
        have htr : (1 : ℤ) ≤ ((permitsF total c2).trunc : ℤ) := by
          rw [F64.trunc_eq, Int.le_floor]
          exact_mod_cast hval
        exact le_min (by norm_num) (by exact_mod_cast htr)
    · have hge1 : 1 ≤ (permitsF total c1).val := by
        by_contra hcon
        exact hlt1 ((F64.ltOne_iff _).mpr (not_le.mp hcon))
      have hlt2 : ¬ (permitsF total c2).ltOne := by
        intro hcon
        have := (F64.ltOne_iff _).mp hcon
        linarith
      rw [if_neg hlt1, if_neg hlt2]
      have htr : ((permitsF total c1).trunc : ℤ) ≤ ((permitsF total c2).trunc : ℤ) := by
        rw [F64.trunc_eq, F64.trunc_eq]
        exact Int.floor_le_floor hmono
      exact min_le_min le_rfl (by exact_mod_cast htr)

/-- C2 (witness): the amended monotonicity instantiated at concrete inputs. -/
theorem compute_permits_monotone_witness :
    compute_permits 100 10 ≤ compute_permits 100 20 ∧ compute_permits 33 4096 = 33 :=
  ⟨compute_permits_monotone.1 100 10 20 (by decide) (by decide) (by decide),
    compute_permits_monotone.2 33 4096 (by decide) (by decide)⟩

/-! Data model of the compactor.  The `data_types` crate is not part of the
sources under study, so the file shape is taken from the specification. -/

/-- Modelled from the spec: compaction level of a file, `{L0, L1, L2}`
(`data_types::CompactionLevel` is not under the sources provided). -/
inductive CompactionLevel where
  | L0
  | L1
  | L2
deriving DecidableEq, Repr

/-- Modelled from the spec: a durable parquet file record with the attributes
the spec lists for **File** (`data_types::ParquetFile` is not under the
sources provided).  The spec's `object_store_uuid` is the field the driver
calls `object_store_id`; UUIDs and timestamps are modelled as integers. -/
structure ParquetFile where
  id : ℕ
  partition_id : ℕ
  object_store_id : ℕ
  compaction_level : CompactionLevel
  min_time : ℤ
  max_time : ℤ
  file_size_bytes : ℤ
  row_count : ℤ
  column_set : List ℕ
  max_sequence_number : ℤ
  created_at : ℤ
deriving DecidableEq, Repr

/-- Modelled from the spec: the pre-commit shape of a file, identical to
`ParquetFile` but without a catalog id. -/
structure ParquetFileParams where
  partition_id : ℕ
  object_store_id : ℕ
  compaction_level : CompactionLevel
  min_time : ℤ
  max_time : ℤ
  file_size_bytes : ℤ
  row_count : ℤ
  column_set : List ℕ
  max_sequence_number : ℤ
  created_at : ℤ
deriving DecidableEq, Repr

/-- Modelled from the spec: materialize a catalog file from its params and the
id assigned by the catalog (`ParquetFile::from_params`). -/
def ParquetFile.from_params (params : ParquetFileParams) (id : ℕ) : ParquetFile :=
  { id := id
    partition_id := params.partition_id
    object_store_id := params.object_store_id
    compaction_level := params.compaction_level
    min_time := params.min_time
    max_time := params.max_time
    file_size_bytes := params.file_size_bytes
    row_count := params.row_count
    column_set := params.column_set
    max_sequence_number := params.max_sequence_number
    created_at := params.created_at }

/-- Modelled from the spec: the closed error taxonomy
`ObjectStore, Timeout, Catalog, Planner, OutOfMemory, Unknown`
(`compactor2::error::ErrorKind` is not under the sources provided). -/
inductive ErrorKind where
  | objectStore
  | timeout
  | catalog
  | planner
  | outOfMemory
  | unknown
deriving DecidableEq, Repr

/-- Dynamic error (`DynError`): a kinded simple error, a plain message
error, or an object-store error, which is all the shapes the sources under
study construct. -/
inductive DynError where
  | simple (kind : ErrorKind) (msg : String)
  | str (msg : String)
  | objectStore (msg : String)
deriving DecidableEq, Repr

/-- Modelled from the spec: `classify(error) → ErrorKind` — every error
carries a kind; a plain message error classifies as `Unknown` and an
object-store error as `ObjectStore` (`ErrorKindExt::classify` in
`compactor2::error` is not under the sources provided; the concrete mapping
matches the metrics sink's test expectations in the sources). -/
def classify : DynError → ErrorKind
  | .simple kind _ => kind
  | .str _ => .unknown
  | .objectStore _ => .objectStore

/-! The driver's `compact_partition`, `compactor2/src/driver.rs` lines 49-97. -/

/-- Outcome of `timeout_with_progress_checking` (the progress-aware timeout
component): completed with the wrapped result, timed out after progress, or
timed out with no progress. -/
inductive TimeoutWithProgress (α : Type) where
  | noWorkTimeOutError
  | someWorkTryAgain
  | completed (res : α)
deriving DecidableEq

/-- Message carried by the timeout error `compact_partition` constructs. -/
def TIMEOUT_NO_PROGRESS_MSG : String := "timeout without making any progress"

/-- The `match res` in `compact_partition`: maps the timeout-wrapper outcome
to the result recorded at the partition-done sink. -/
def compact_partition_result (res : TimeoutWithProgress (Except DynError Unit)) :
    Except DynError Unit :=
  match res with
  | .noWorkTimeOutError =>
      Except.error (DynError.simple ErrorKind.timeout TIMEOUT_NO_PROGRESS_MSG)
  | .someWorkTryAgain => Except.ok ()
  | .completed res => res

instance : DecidableEq (Except DynError Unit) := fun a b => by
  cases a with
  | ok u =>
    cases b with
    | ok v =>
      cases u
      cases v
      exact isTrue rfl
    | error f => exact isFalse (fun h => Except.noConfusion h)
  | error e =>
    cases b with
    | ok v => exact isFalse (fun h => Except.noConfusion h)
    | error f =>
      exact if h : e = f then isTrue (h ▸ rfl) else
        isFalse (by
          intro hc
          injection hc with h2
          exact h h2)

/-- Observable effects of `compact_partition` after the timeout wrapper
returns: recording at the done sink, and cleaning the scratchpad. -/
inductive DriverEvent where
  | record (partition_id : ℕ) (res : Except DynError Unit)
  | cleanScratchpad
deriving DecidableEq

/-- The tail of `compact_partition` as its trace of observable effects: the
outcome of the progress-aware timeout is matched into a result, that result is
recorded at the partition-done sink, and then the scratchpad is cleaned. -/
def compact_partition (partition_id : ℕ)
    (outcome : TimeoutWithProgress (Except DynError Unit)) : List DriverEvent :=
  [DriverEvent.record partition_id (compact_partition_result outcome),
    DriverEvent.cleanScratchpad]

/-- Results recorded at the done sink within a trace of driver events. -/
def recordedResults (events : List DriverEvent) : List (Except DynError Unit) :=
  events.filterMap (fun e =>
    match e with
    | .record _ res => some res
    | .cleanScratchpad => none)

/-! The driver's `run_plans`, `compactor2/src/driver.rs` lines 311-351. -/

/-- Modelled from the spec: the planner IR, a tagged variant
`Compact{inputs, target_level} | Split{input, split_times, target_level} |
None` (`compactor2::plan_ir::PlanIR` is not under the sources provided). -/
inductive PlanIR where
  | compact (input_files : List ParquetFile) (target_level : CompactionLevel)
  | split (input_file : ParquetFile) (split_times : List ℤ) (target_level : CompactionLevel)
  | none
deriving DecidableEq

/-- The driver's filter predicate `matches!(plan, PlanIR::None { .. })`. -/
def PlanIR.isNone : PlanIR → Bool
  | .none => true
  | _ => false

/-- Concatenation, in order, of the file params produced per plan. -/
def flatAll (f : PlanIR → List ParquetFileParams) : List PlanIR → List ParquetFileParams
  | [] => []
  | p :: rest => f p ++ flatAll f rest

/-- The sequential loop body of `run_plans`: execute each plan in order,
extending the accumulated `created_file_params`; the `?` operator aborts on
the first failing plan.  Returns the trace of plans on which `execute_plan`
was invoked together with the result. -/
def run_plans_go (exec : PlanIR → Except DynError (List ParquetFileParams)) :
    List PlanIR → List ParquetFileParams →
      List PlanIR × Except DynError (List ParquetFileParams)
  | [], acc => ([], Except.ok acc)
  | plan :: rest, acc =>
    match exec plan with
    | Except.error e => ([plan], Except.error e)
    | Except.ok created =>
      let r := run_plans_go exec rest (acc ++ created)
      (plan :: r.1, r.2)

/-- `run_plans`, abstracted over the plans the IR planner produced and over
`execute_plan` (which performs object-store and DataFusion work): filters out
`PlanIR::None`, then runs the remaining plans sequentially in order. -/
def run_plans (exec : PlanIR → Except DynError (List ParquetFileParams))
    (plans : List PlanIR) : List PlanIR × Except DynError (List ParquetFileParams) :=
  run_plans_go exec (plans.filter (fun plan => !plan.isNone)) []

/-! The driver's `update_catalog`, `compactor2/src/driver.rs` lines 434-490. -/

/-- Modelled from the spec: the fingerprint of a file set used for optimistic
concurrency detection — the `(id, object_store_uuid)` pairs
(`compactor2::components::changed_files_filter::SavedParquetFileState` is not
under the sources provided). -/
structure SavedParquetFileState where
  ids : List (ℕ × ℕ)
deriving DecidableEq

/-- Modelled from the spec: `SavedParquetFileState::from(&files)`. -/
def SavedParquetFileState.from_files (files : List ParquetFile) : SavedParquetFileState :=
  ⟨files.map (fun f => (f.id, f.object_store_id))⟩

/-- Modelled from the spec: the changed-files filter compares the saved
fingerprint with the current one and reports whether a concurrent mutation is
visible (the caller only logs the outcome). -/
def changed_files_apply (old_state new_state : SavedParquetFileState) : Bool :=
  !(old_state.ids.all (fun pr => new_state.ids.contains pr) &&
    new_state.ids.all (fun pr => old_state.ids.contains pr))

/-- `fetch_and_save_parquet_file_state`: fingerprint of the partition's
current catalog file set (the catalog fetch is abstracted as the list it
returns). -/
def fetch_and_save_parquet_file_state (catalog_files : List ParquetFile) :
    SavedParquetFileState :=
  SavedParquetFileState.from_files catalog_files

/-- Arguments of the single catalog `commit` transaction. -/
structure CommitCall where
  partition_id : ℕ
  files_to_delete : List ParquetFile
  files_to_upgrade : List ParquetFile
  file_params_to_create : List ParquetFileParams
  target_level : CompactionLevel
deriving DecidableEq

/-- Observable outcome of `update_catalog`: the changed-files comparison it
computed (and discarded), the commit it performed, and the created and
upgraded file lists it returns. -/
structure UpdateCatalogResult where
  changed_files_detected : Bool
  commit_call : Option CommitCall
  created : List ParquetFile
  upgraded : List ParquetFile
deriving DecidableEq

/-- `update_catalog`: re-fetches the partition's current file set (abstracted
as `current_files`), applies the changed-files filter to the saved state and
the re-fetched state binding the result to an ignored variable, commits
unconditionally, zips the returned `created_ids` onto the params, and bumps
`compaction_level` of every upgraded file to `target_level`. -/
def update_catalog (partition_id : ℕ) (saved_parquet_file_state : SavedParquetFileState)
    (files_to_delete files_to_upgrade : List ParquetFile)
    (file_params_to_create : List ParquetFileParams) (target_level : CompactionLevel)
    (current_files : List ParquetFile) (created_ids : List ℕ) : UpdateCatalogResult :=
  let current_parquet_file_state := fetch_and_save_parquet_file_state current_files
  let ignored := changed_files_apply saved_parquet_file_state current_parquet_file_state
  let created_file_params :=
    (file_params_to_create.zip created_ids).map (fun pr => ParquetFile.from_params pr.1 pr.2)
  let upgraded_files :=
    files_to_upgrade.map (fun f => { f with compaction_level := target_level })
  { changed_files_detected := ignored
    commit_call := some
      ⟨partition_id, files_to_delete, files_to_upgrade, file_params_to_create, target_level⟩
    created := created_file_params
    upgraded := upgraded_files }

/-! The metrics partition-done sink,
`compactor2/src/components/partition_done_sink/metrics.rs`. -/

/-- State of `MetricsPartitionDoneSinkWrapper`: the ok counter, one error
counter per `ErrorKind` (the map is total, mirroring the constructor that
registers a counter for every variant), and the inner sink abstracted as the
list of records it received. -/
structure MetricsSinkState where
  okCounter : ℕ
  errorCounter : ErrorKind → ℕ
  inner : List (ℕ × Except DynError Unit)

/-- Fresh wrapper over an empty inner sink: all counters start at zero. -/
def metricsSinkInit : MetricsSinkState :=
  { okCounter := 0, errorCounter := fun _ => 0, inner := [] }

/-- `MetricsPartitionDoneSinkWrapper::record`: on `Ok` increment the ok
counter, on `Err` classify and increment that kind's counter, then delegate
the unchanged pair to the inner sink. -/
def MetricsSinkState.record (s : MetricsSinkState) (partition : ℕ)
    (res : Except DynError Unit) : MetricsSinkState :=
  match res with
  | .ok _ =>
    { s with okCounter := s.okCounter + 1, inner := s.inner ++ [(partition, res)] }
  | .error e =>
    { s with
      errorCounter := fun k =>
        if k = classify e then s.errorCounter k + 1 else s.errorCounter k
      inner := s.inner ++ [(partition, res)] }

/-! Claims about the driver's outcome handling and the components. -/

/-- C3: `compact_partition` maps the three outcomes of the progress-aware
timeout to exactly what it records at the done sink: `NoWorkTimeOutError` is
recorded as an error whose kind classifies as `Timeout`, `SomeWorkTryAgain`
is recorded as success, and `Completed res` is recorded as `res` unchanged. -/
theorem compact_partition_outcome_mapping (pid : ℕ) (r : Except DynError Unit) :
    recordedResults (compact_partition pid TimeoutWithProgress.noWorkTimeOutError)
        = [Except.error (DynError.simple ErrorKind.timeout TIMEOUT_NO_PROGRESS_MSG)] ∧
    classify (DynError.simple ErrorKind.timeout TIMEOUT_NO_PROGRESS_MSG) = ErrorKind.timeout ∧
    recordedResults (compact_partition pid TimeoutWithProgress.someWorkTryAgain)
        = [Except.ok ()] ∧
    recordedResults (compact_partition pid (TimeoutWithProgress.completed r)) = [r] :=
  ⟨rfl, rfl, rfl, rfl⟩

/-- C9: in every execution of `compact_partition`, whatever the timeout
outcome, the scratchpad is cleaned exactly once, and only after the outcome
has been recorded at the done sink. -/
theorem compact_partition_cleans_once (pid : ℕ)
    (outcome : TimeoutWithProgress (Except DynError Unit)) :
    (compact_partition pid outcome).count DriverEvent.cleanScratchpad = 1 ∧
    compact_partition pid outcome
      = [DriverEvent.record pid (compact_partition_result outcome),
          DriverEvent.cleanScratchpad] := by
  constructor
  · simp [compact_partition, List.count_cons]
  · rfl

/-- C4: every commit performed by `update_catalog` returns each file of
`files_to_upgrade`, in order, with `compaction_level` set to the round's
`target_level` and every other attribute unchanged. -/
theorem update_catalog_upgrade_identity
    (pid : ℕ) (saved : SavedParquetFileState) (del upg : List ParquetFile)
    (params : List ParquetFileParams) (target : CompactionLevel)
    (current : List ParquetFile) (ids : List ℕ) :
    (update_catalog pid saved del upg params target current ids).upgraded.length
        = upg.length ∧
    ∀ (i : ℕ) (h1 : i < upg.length)
      (h2 : i < (update_catalog pid saved del upg params target current ids).upgraded.length),
      ((update_catalog pid saved del upg params target current ids).upgraded.get
          ⟨i, h2⟩).compaction_level = target ∧
      ((update_catalog pid saved del upg params target current ids).upgraded.get
          ⟨i, h2⟩).id = (upg.get ⟨i, h1⟩).id ∧
      ((update_catalog pid saved del upg params target current ids).upgraded.get
          ⟨i, h2⟩).partition_id = (upg.get ⟨i, h1⟩).partition_id ∧
      ((update_catalog pid saved del upg params target current ids).upgraded.get
          ⟨i, h2⟩).object_store_id = (upg.get ⟨i, h1⟩).object_store_id ∧
      ((update_catalog pid saved del upg params target current ids).upgraded.get
          ⟨i, h2⟩).min_time = (upg.get ⟨i, h1⟩).min_time ∧
      ((update_catalog pid saved del upg params target current ids).upgraded.get
          ⟨i, h2⟩).max_time = (upg.get ⟨i, h1⟩).max_time ∧
      ((update_catalog pid saved del upg params target current ids).upgraded.get
          ⟨i, h2⟩).file_size_bytes = (upg.get ⟨i, h1⟩).file_size_bytes ∧
      ((update_catalog pid saved del upg params target current ids).upgraded.get
          ⟨i, h2⟩).row_count = (upg.get ⟨i, h1⟩).row_count ∧
      ((update_catalog pid saved del upg params target current ids).upgraded.get
          ⟨i, h2⟩).column_set = (upg.get ⟨i, h1⟩).column_set ∧
      ((update_catalog pid saved del upg params target current ids).upgraded.get
          ⟨i, h2⟩).max_sequence_number = (upg.get ⟨i, h1⟩).max_sequence_number ∧
      ((update_catalog pid saved del upg params target current ids).upgraded.get
          ⟨i, h2⟩).created_at = (upg.get ⟨i, h1⟩).created_at := by
  have hupg : (update_catalog pid saved del upg params target current ids).upgraded
      = upg.map (fun f => { f with compaction_level := target }) := rfl
  constructor
  · rw [hupg, List.length_map]
  · intro i h1 h2
    have hget : (update_catalog pid saved del upg params target current ids).upgraded.get
        ⟨i, h2⟩ = { upg.get ⟨i, h1⟩ with compaction_level := target } := by
      simp only [hupg, List.get_eq_getElem, List.getElem_map]
    rw [hget]
    exact ⟨rfl, rfl, rfl, rfl, rfl, rfl, rfl, rfl, rfl, rfl, rfl⟩

/-- C4 (witness): the identity-preservation applied to one concrete upgraded
file. -/
theorem update_catalog_upgrade_identity_witness :
    ((update_catalog 1 ⟨[]⟩ [] [⟨1, 2, 3, CompactionLevel.L0, 4, 5, 6, 7, [8], 9, 10⟩]
        [] CompactionLevel.L1 [] []).upgraded.length = 1) ∧
    ((update_catalog 1 ⟨[]⟩ [] [⟨1, 2, 3, CompactionLevel.L0, 4, 5, 6, 7, [8], 9, 10⟩]
        [] CompactionLevel.L1 [] []).upgraded.get ⟨0, by decide⟩).compaction_level
      = CompactionLevel.L1 :=
  ⟨(update_catalog_upgrade_identity 1 ⟨[]⟩ []
      [⟨1, 2, 3, CompactionLevel.L0, 4, 5, 6, 7, [8], 9, 10⟩] [] CompactionLevel.L1 [] []).1,
    ((update_catalog_upgrade_identity 1 ⟨[]⟩ []
      [⟨1, 2, 3, CompactionLevel.L0, 4, 5, 6, 7, [8], 9, 10⟩] [] CompactionLevel.L1 [] []).2
      0 (by decide) (by decide)).1⟩

/-- C5: `update_catalog` computes the changed-files comparison of the saved
snapshot against the freshly fetched fingerprint, then commits
unconditionally: the commit call and the returned created and upgraded files
are the same whatever the re-fetched file set (the comparison is logged
only). -/
theorem update_catalog_commit_unconditional
    (pid : ℕ) (saved : SavedParquetFileState) (del upg : List ParquetFile)
    (params : List ParquetFileParams) (target : CompactionLevel) (ids : List ℕ) :
    (∀ current : List ParquetFile,
      (update_catalog pid saved del upg params target current ids).changed_files_detected
          = changed_files_apply saved (fetch_and_save_parquet_file_state current) ∧
      (update_catalog pid saved del upg params target current ids).commit_call
          = some ⟨pid, del, upg, params, target⟩) ∧
    (∀ current1 current2 : List ParquetFile,
      (update_catalog pid saved del upg params target current1 ids).commit_call
          = (update_catalog pid saved del upg params target current2 ids).commit_call ∧
      (update_catalog pid saved del upg params target current1 ids).created
          = (update_catalog pid saved del upg params target current2 ids).created ∧
      (update_catalog pid saved del upg params target current1 ids).upgraded
          = (update_catalog pid saved del upg params target current2 ids).upgraded) :=
  ⟨fun _ => ⟨rfl, rfl⟩, fun _ _ => ⟨rfl, rfl, rfl⟩⟩

theorem run_plans_go_ok (exec : PlanIR → Except DynError (List ParquetFileParams))
    (f : PlanIR → List ParquetFileParams) :
    ∀ (l : List PlanIR) (acc : List ParquetFileParams),
      (∀ p ∈ l, exec p = Except.ok (f p)) →
      run_plans_go exec l acc = (l, Except.ok (acc ++ flatAll f l)) := by
  intro l
  induction l with
  | nil =>
    intro acc _
    simp [run_plans_go, flatAll]
  | cons p rest ih =>
    intro acc hall
    have hp : exec p = Except.ok (f p) := hall p (by simp)
    simp only [run_plans_go, hp]
    rw [ih (acc ++ f p) (fun q hq => hall q (by simp [hq]))]
    simp [flatAll]

theorem run_plans_go_err (exec : PlanIR → Except DynError (List ParquetFileParams))
    (f : PlanIR → List ParquetFileParams) (e : DynError) :
    ∀ (pre : List PlanIR) (p : PlanIR) (post : List PlanIR) (acc : List ParquetFileParams),
      (∀ q ∈ pre, exec q = Except.ok (f q)) → exec p = Except.error e →
      run_plans_go exec (pre ++ p :: post) acc = (pre ++ [p], Except.error e) := by
  intro pre
  induction pre with
  | nil =>
    intro p post acc _ hp
    simp [run_plans_go, hp]
  | cons q rest ih =>
    intro p post acc hall hp
    have hq : exec q = Except.ok (f q) := hall q (by simp)
    simp only [List.cons_append, run_plans_go, hq]
    rw [show rest.append (p :: post) = rest ++ p :: post from rfl]
    rw [ih p post (acc ++ f q) (fun r hr => hall r (by simp [hr])) hp]

theorem run_plans_go_trace_subset (exec : PlanIR → Except DynError (List ParquetFileParams)) :
    ∀ (l : List PlanIR) (acc : List ParquetFileParams),
      ∀ p ∈ (run_plans_go exec l acc).1, p ∈ l := by
  intro l
  induction l with
  | nil =>
    intro acc p hp
    simp [run_plans_go] at hp
  | cons q rest ih =>
    intro acc p hp
    cases hqe : exec q with
    | error e2 =>
      simp only [run_plans_go, hqe] at hp
      simp at hp
      simp [hp]
    | ok created =>
      simp only [run_plans_go, hqe] at hp
      simp only [List.mem_cons] at hp
      rcases hp with hp | hp
      · simp [hp]
      · exact List.mem_cons_of_mem q (ih (acc ++ created) p hp)

/-- C6: `run_plans` filters out `PlanIR::None` (no such plan is ever
executed), executes the remaining plans sequentially in their original
order, concatenates the produced file params in order, and aborts on the
first failing plan with that plan's error, executing no later plan. -/
theorem run_plans_spec (exec : PlanIR → Except DynError (List ParquetFileParams))
    (plans : List PlanIR) (f : PlanIR → List ParquetFileParams) (e : DynError) :
    PlanIR.none ∉ (run_plans exec plans).1 ∧
    ((∀ p ∈ plans.filter (fun q => !q.isNone), exec p = Except.ok (f p)) →
      run_plans exec plans
        = (plans.filter (fun q => !q.isNone),
            Except.ok (flatAll f (plans.filter (fun q => !q.isNone))))) ∧
    (∀ pre p post,
      plans.filter (fun q => !q.isNone) = pre ++ p :: post →
      (∀ q ∈ pre, exec q = Except.ok (f q)) → exec p = Except.error e →
      run_plans exec plans = (pre ++ [p], Except.error e)) := by
  refine ⟨?_, ?_, ?_⟩
  · intro hmem
    have hin := run_plans_go_trace_subset exec (plans.filter (fun q => !q.isNone)) []
      PlanIR.none hmem
    have hn := List.of_mem_filter hin
    simp [PlanIR.isNone] at hn
  · intro hall
    unfold run_plans
    rw [run_plans_go_ok exec f _ [] hall]
    simp
  · intro pre p post hsplit hpre hp
    unfold run_plans
    rw [hsplit, run_plans_go_err exec f e pre p post [] hpre hp]

/-- Message used for the concrete failing-plan scenario. -/
def PLAN_FAIL_MSG : String := "plan failed"

/-- C6 (witness): with plans `[None, Compact([], L1)]` and an executor that
fails, the `None` plan is skipped and `run_plans` stops at the first executed
plan with its error. -/
theorem run_plans_spec_witness :
    run_plans (fun _ => Except.error (DynError.str PLAN_FAIL_MSG))
        [PlanIR.none, PlanIR.compact [] CompactionLevel.L1]
      = ([PlanIR.compact [] CompactionLevel.L1],
          Except.error (DynError.str PLAN_FAIL_MSG)) :=
  (run_plans_spec (fun _ => Except.error (DynError.str PLAN_FAIL_MSG))
      [PlanIR.none, PlanIR.compact [] CompactionLevel.L1]
      (fun _ => []) (DynError.str PLAN_FAIL_MSG)).2.2
    [] (PlanIR.compact [] CompactionLevel.L1) [] (by decide) (by simp) rfl

/-- Message of the first two recorded errors in the metrics scenario. -/
def MSG1 : String := "msg 1"

/-- Message of the second recorded error in the metrics scenario. -/
def MSG2 : String := "msg 2"

/-- Display of `object_store::Error::NotImplemented`. -/
def OBJECT_STORE_MSG : String := "Operation not yet implemented."

/-- C7: each `record` on the metrics done-sink wrapper increments exactly one
counter by one — the ok counter on success, the counter of `classify error`
on failure — and forwards the pair unchanged to the inner sink; recording
`Err(msg), Err(msg), Err(ObjectStoreNotImplemented), Ok(())` from a fresh
registry yields ok = 1, unknown = 2, object-store = 1 and all other counters
zero. -/
theorem metrics_sink_record_spec :
    (∀ (s : MetricsSinkState) (p : ℕ) (res : Except DynError Unit),
      (s.record p res).inner = s.inner ++ [(p, res)] ∧
      (res = Except.ok () →
        (s.record p res).okCounter = s.okCounter + 1 ∧
        ∀ k, (s.record p res).errorCounter k = s.errorCounter k) ∧
      (∀ err, res = Except.error err →
        (s.record p res).okCounter = s.okCounter ∧
        (s.record p res).errorCounter (classify err)
            = s.errorCounter (classify err) + 1 ∧
        ∀ k, k ≠ classify err →
          (s.record p res).errorCounter k = s.errorCounter k)) ∧
    ((((metricsSinkInit.record 1 (Except.error (DynError.str MSG1))).record 2
        (Except.error (DynError.str MSG2))).record 1
        (Except.error (DynError.objectStore OBJECT_STORE_MSG))).record 3
        (Except.ok ())).okCounter = 1 ∧
    ((((metricsSinkInit.record 1 (Except.error (DynError.str MSG1))).record 2
        (Except.error (DynError.str MSG2))).record 1
        (Except.error (DynError.objectStore OBJECT_STORE_MSG))).record 3
        (Except.ok ())).errorCounter ErrorKind.unknown = 2 ∧
    ((((metricsSinkInit.record 1 (Except.error (DynError.str MSG1))).record 2
        (Except.error (DynError.str MSG2))).record 1
        (Except.error (DynError.objectStore OBJECT_STORE_MSG))).record 3
        (Except.ok ())).errorCounter ErrorKind.objectStore = 1 ∧
    ((((metricsSinkInit.record 1 (Except.error (DynError.str MSG1))).record 2
        (Except.error (DynError.str MSG2))).record 1
        (Except.error (DynError.objectStore OBJECT_STORE_MSG))).record 3
        (Except.ok ())).errorCounter ErrorKind.timeout = 0 ∧
    ((((metricsSinkInit.record 1 (Except.error (DynError.str MSG1))).record 2
        (Except.error (DynError.str MSG2))).record 1
        (Except.error (DynError.objectStore OBJECT_STORE_MSG))).record 3
        (Except.ok ())).errorCounter ErrorKind.catalog = 0 ∧
    ((((metricsSinkInit.record 1 (Except.error (DynError.str MSG1))).record 2
        (Except.error (DynError.str MSG2))).record 1
        (Except.error (DynError.objectStore OBJECT_STORE_MSG))).record 3
        (Except.ok ())).errorCounter ErrorKind.planner = 0 ∧
    ((((metricsSinkInit.record 1 (Except.error (DynError.str MSG1))).record 2
        (Except.error (DynError.str MSG2))).record 1
        (Except.error (DynError.objectStore OBJECT_STORE_MSG))).record 3
        (Except.ok ())).errorCounter ErrorKind.outOfMemory = 0 ∧
    ((((metricsSinkInit.record 1 (Except.error (DynError.str MSG1))).record 2
        (Except.error (DynError.str MSG2))).record 1
        (Except.error (DynError.objectStore OBJECT_STORE_MSG))).record 3
        (Except.ok ())).inner
      = [(1, Except.error (DynError.str MSG1)), (2, Except.error (DynError.str MSG2)),
          (1, Except.error (DynError.objectStore OBJECT_STORE_MSG)), (3, Except.ok ())] := by
  refine ⟨?_, by decide, by decide, by decide, by decide, by decide, by decide, by decide,
    by decide⟩
  intro s p res
  refine ⟨?_, ?_, ?_⟩
  · cases res <;> rfl
  · intro h
    subst h
    exact ⟨rfl, fun _ => rfl⟩
  · intro err h
    subst h
    refine ⟨rfl, ?_, ?_⟩
    · simp [MetricsSinkState.record]
    · intro k hk
      simp [MetricsSinkState.record, hk]

/-- C7 (witness): one concrete record through the wrapper increments exactly
the classified counter. -/
theorem metrics_sink_record_spec_witness :
    (metricsSinkInit.record 7 (Except.error (DynError.str MSG1))).errorCounter
        (classify (DynError.str MSG1))
      = metricsSinkInit.errorCounter (classify (DynError.str MSG1)) + 1 :=
  ((metrics_sink_record_spec.1 metricsSinkInit 7
      (Except.error (DynError.str MSG1))).2.2 (DynError.str MSG1) rfl).2.1

/-- C8: the duration utility's round-trip scenarios: `3w2h15ms` parses fully
and displays back as `3w2h15ms`; `5s5s5s5s5s` parses (fragments sum) and
displays as `25s`; the zero duration displays as `0s`. -/
theorem duration_round_trip :
    (durationParse (r"3w2h15ms")
        = some ((r""), ⟨3 * NANOS_PER_WEEK + 2 * NANOS_PER_HOUR + 15 * NANOS_PER_MILLI⟩) ∧
      Duration.display ⟨3 * NANOS_PER_WEEK + 2 * NANOS_PER_HOUR + 15 * NANOS_PER_MILLI⟩
        = r"3w2h15ms") ∧
    (durationParse (r"5s5s5s5s5s") = some ((r""), ⟨25 * NANOS_PER_SEC⟩) ∧
      Duration.display ⟨25 * NANOS_PER_SEC⟩ = r"25s") ∧
    Duration.display ⟨0⟩ = r"0s" :=
  ⟨⟨by decide, by decide⟩, ⟨by decide, by decide⟩, by decide⟩

/-- C10: `Display for Duration` emits a unit only when the total value is
strictly greater than the unit's divisor: a positive duration equal to any
divisor larger than one nanosecond is not rendered with its canonical unit
(in particular one second renders as `1000ms`, so parse-display is not the
identity on `1s`), and every negative duration renders as the empty
string. -/
theorem duration_display_strict_threshold :
    (∀ pr ∈ DIVISORS, 1 < pr.1 → Duration.display ⟨pr.1⟩ ≠ natToString 1 ++ pr.2) ∧
    durationParse (r"1s") = some ((r""), ⟨NANOS_PER_SEC⟩) ∧
    Duration.display ⟨NANOS_PER_SEC⟩ = r"1000ms" ∧
    (∀ v : ℤ, v < 0 → Duration.display ⟨v⟩ = String.mk []) := by
  refine ⟨by decide, by decide, by decide, ?_⟩
  intro v hv
  have hnanos : (Duration.mk v).nanos = v := rfl
  unfold Duration.display
  rw [hnanos, if_neg (by omega : ¬ v = 0)]
  have hfilter : DIVISORS.filter (fun pr => decide (v > pr.1)) = [] := by
    rw [List.filter_eq_nil_iff]
    intro a ha
    fin_cases ha <;>
      simp only [decide_eq_true_eq, NANOS_PER_WEEK, NANOS_PER_DAY, NANOS_PER_HOUR,
        NANOS_PER_MIN, NANOS_PER_SEC, NANOS_PER_MILLI, NANOS_PER_MICRO, gt_iff_lt, not_lt] <;>
      omega
  rw [hfilter]
  rfl

/-- C10 (witness): the threshold behaviour at one second and at a negative
duration. -/
theorem duration_display_strict_threshold_witness :
    Duration.display ⟨NANOS_PER_SEC⟩ ≠ natToString 1 ++ r"s" ∧
      Duration.display ⟨-5⟩ = String.mk [] :=
  ⟨duration_display_strict_threshold.1 (NANOS_PER_SEC, r"s") (by decide) (by decide),
    duration_display_strict_threshold.2.2.2 (-5) (by decide)⟩
